import Mathlib

/-!
# Whisper node core (`whisper/whisper.go`): envelope pool, inbound loop, open

A shallow embedding of the pool operations `add`, `expire`, `envelopes`, of the
inbound loop of `handlePeer`, and of `open`, `postEvent`, `createFilter`.

Go maps are association lists read through `mapGet`; the order of a list is one
iteration order of the map, and every statement below is either independent of
that order or quantifies over it.  The goroutine `go w.postEvent(envelope)` is
recorded by appending the envelope to the field `spawned`.
-/

namespace Shh

/-! ## Go maps and the `set.SetNonTS` hash set -/

/-- Map read `m[k]` (with the `ok` flag: `none` when the key is absent). -/
def mapGet {K V : Type} [DecidableEq K] : List (K × V) → K → Option V
  | [], _ => none
  | (k', v) :: m, k => if k' = k then some v else mapGet m k

/-- Map write `m[k] = v`: overwrite the entry of `k`, or create it. -/
def mapSet {K V : Type} [DecidableEq K] : List (K × V) → K → V → List (K × V)
  | [], k, v => [(k, v)]
  | (k', v') :: m, k, v => if k' = k then (k, v) :: m else (k', v') :: mapSet m k v

/-- Builtin `delete(m, k)`. -/
def mapDelete {K V : Type} [DecidableEq K] (m : List (K × V)) (k : K) : List (K × V) :=
  m.filter (fun p => decide (p.1 ≠ k))

/-- The keys of a map. -/
def mapKeys {K V : Type} (m : List (K × V)) : List K := m.map Prod.fst

/-- Method `Has` of the hash set. -/
def setHas {A : Type} [DecidableEq A] (s : List A) (a : A) : Bool := decide (a ∈ s)

/-- Method `Add` of the hash set (adding a member again changes nothing). -/
def setAdd {A : Type} [DecidableEq A] (s : List A) (a : A) : List A :=
  if a ∈ s then s else s ++ [a]

/-! ## Data model -/

/-- Type `common.Hash` (32 bytes, read as a number). -/
abbrev Hash := Nat

/-- A topic tag (4 bytes, read as a number). -/
abbrev Topic := Nat

/-- Go `error` values, by their text. -/
abbrev Error := String

/-- Modelled from the spec: the `Envelope` record of section 3 (its Go declaration is in
`envelope.go`, which is not among the sources): expiry, ttl, topics, data, nonce. -/
structure Envelope where
  Expiry : Nat
  TTL : Nat
  Topics : List Topic
  Data : List Nat
  Nonce : Nat
  deriving DecidableEq, Repr

/-- Type `ecdsa.PublicKey`, by its curve point. -/
structure PublicKey where
  X : Nat
  Y : Nat
  deriving DecidableEq, Repr

/-- Type `ecdsa.PrivateKey`: the embedded public key and the secret scalar. -/
structure PrivateKey where
  PublicKey : PublicKey
  D : Nat
  deriving DecidableEq, Repr

/-- Modelled from the spec: the `Message` record of section 3 (declared in `message.go`,
not among the sources): flags, signature, payload, sent, to. -/
structure Message where
  Flags : Nat
  Signature : List Nat
  Payload : List Nat
  Sent : Nat
  To : Option PublicKey
  deriving DecidableEq, Repr

/-- The fields of `Whisper` that the pool and `open` use, and the log `spawned` of the
`postEvent` goroutines started so far (oldest first). -/
structure Whisper where
  keys : List (List Nat × PrivateKey)
  messages : List (Hash × Envelope)
  expirations : List (Nat × List Hash)
  spawned : List Envelope
  deriving DecidableEq, Repr

/-- Function `New`: all maps empty, nothing spawned. -/
def New : Whisper :=
  { keys := [], messages := [], expirations := [], spawned := [] }

/-- The set stored at `w.expirations[t]`, empty when there is none. -/
def bucket (ex : List (Nat × List Hash)) (t : Nat) : List Hash :=
  (mapGet ex t).getD []

/-! ## The pool: `add`, `expire`, `envelopes` -/

/-- Method `Whisper.add`.  `hashOf` stands for `Envelope.Hash` of `envelope.go`, taken as a
parameter.  The result is the new state and the returned error. -/
def Whisper.add (hashOf : Envelope → Hash) (w : Whisper) (envelope : Envelope) :
    Whisper × Option Error :=
  let hash := hashOf envelope
  if (mapGet w.messages hash).isSome then
    (w, none)
  else
    let w1 : Whisper := { w with messages := mapSet w.messages hash envelope }
    let w2 : Whisper :=
      if (mapGet w1.expirations envelope.Expiry).isNone then
        { w1 with expirations := mapSet w1.expirations envelope.Expiry [] }
      else w1
    let s := bucket w2.expirations envelope.Expiry
    if !(setHas s hash) then
      ({ w2 with
          expirations := mapSet w2.expirations envelope.Expiry (setAdd s hash),
          spawned := w2.spawned ++ [envelope] }, none)
    else
      (w2, none)

/-- One round of the loop of `Whisper.expire`, for the entry `then ↦ hashSet`. -/
def expireStep (now : Nat) (w : Whisper) (entry : Nat × List Hash) : Whisper :=
  if entry.1 > now then
    w
  else
    { w with
        messages := entry.2.foldl mapDelete w.messages,
        expirations := mapSet w.expirations entry.1 [] }

/-- Method `Whisper.expire`, with `now` the value of `uint32(time.Now().Unix())`. -/
def Whisper.expire (now : Nat) (w : Whisper) : Whisper :=
  w.expirations.foldl (expireStep now) w

/-- Method `Whisper.envelopes`. -/
def Whisper.envelopes (w : Whisper) : List Envelope :=
  w.messages.foldl (fun acc p => acc ++ [p.2]) []

/-- An operation on the pool. -/
inductive PoolOp where
  | add (envelope : Envelope)
  | expire (now : Nat)
  deriving DecidableEq, Repr

/-- The state after one pool operation. -/
def applyOp (hashOf : Envelope → Hash) (w : Whisper) : PoolOp → Whisper
  | .add e => (Whisper.add hashOf w e).1
  | .expire now => Whisper.expire now w

/-- The state after a sequence of pool operations, first operation first. -/
def runOps (hashOf : Envelope → Hash) (w : Whisper) (ops : List PoolOp) : Whisper :=
  ops.foldl (applyOp hashOf) w

/-! ## The inbound loop of `handlePeer` -/

/-- Packet code of the handshake packet. -/
def statusCode : Nat := 0x00

/-- Packet code of an envelope batch. -/
def messagesCode : Nat := 0x01

/-- Modelled from the spec: the packet handed over by the transport (`server.Msg`, not among
the sources): its packet code, and what `packet.Decode(&envelopes)` yields for it, `none`
when decoding into a list of envelopes fails. -/
structure Msg where
  Code : Nat
  Decoded : Option (List Envelope)
  deriving DecidableEq, Repr

/-- Modelled from the spec: the per-peer state (`peer.go`, not among the sources), reduced
to its `known` set of envelope hashes. -/
structure Peer where
  known : List Hash
  deriving DecidableEq, Repr

/-- Modelled from the spec: `peer.mark` (`peer.go`, not among the sources) records the hash
of the envelope in the peer's `known` set. -/
def Peer.mark (hashOf : Envelope → Hash) (p : Peer) (envelope : Envelope) : Peer :=
  { p with known := setAdd p.known (hashOf envelope) }

/-- The inner loop of `handlePeer`: `add`, whose error is only logged, then `mark`, for
each envelope of the packet in order. -/
def injectAll (hashOf : Envelope → Hash) (w : Whisper) (p : Peer) :
    List Envelope → Whisper × Peer
  | [] => (w, p)
  | envelope :: rest =>
    injectAll hashOf (Whisper.add hashOf w envelope).1 (Peer.mark hashOf p envelope) rest

/-- The read loop of `Whisper.handlePeer` (the running phase, after the handshake).
`reads` holds the results of the successive calls of `rw.ReadMsg()`.  The third component
is the error `handlePeer` returns, or `none` while the loop waits for the next packet. -/
def Whisper.handlePeer (hashOf : Envelope → Hash) (w : Whisper) (p : Peer) :
    List (Except Error Msg) → Whisper × Peer × Option Error
  | [] => (w, p, none)
  | .error err :: _ => (w, p, some err)
  | .ok packet :: rest =>
    match packet.Decoded with
    | none => Whisper.handlePeer hashOf w p rest
    | some envelopes =>
      Whisper.handlePeer hashOf (injectAll hashOf w p envelopes).1
        (injectAll hashOf w p envelopes).2 rest

/-- The error of the first failed read, if any. -/
def firstReadError : List (Except Error Msg) → Option Error
  | [] => none
  | .error err :: _ => some err
  | .ok _ :: rest => firstReadError rest

/-! ## `open`, `postEvent`, `createFilter` -/

/-- The pair `(msg, err)` returned by `Envelope.Open`, by the three cases `Whisper.open`
tells apart: `err == nil` (the message is then present), `err == ecies.ErrInvalidPublicKey`,
any other error. -/
inductive OpenResult where
  | ok (message : Message)
  | errInvalidPublicKey (message : Option Message)
  | errOther (message : Option Message)
  deriving DecidableEq, Repr

/-- The loop of `Whisper.open` over the identities, in iteration order.  The second
component lists the keys `Envelope.Open` was called with. -/
def openKeys (envOpen : Envelope → Option PrivateKey → OpenResult) (envelope : Envelope) :
    List PrivateKey → Option Message × List (Option PrivateKey)
  | [] => (none, [])
  | key :: rest =>
    match envOpen envelope (some key) with
    | .ok message => (some { message with To := some key.PublicKey }, [some key])
    | .errInvalidPublicKey message => (message, [some key])
    | .errOther _ =>
      ((openKeys envOpen envelope rest).1, some key :: (openKeys envOpen envelope rest).2)

/-- Method `Whisper.open` together with the list of the calls of `Envelope.Open` it makes
(`none` is the call `Open(nil)`).  `envOpen` stands for `Envelope.Open` of `envelope.go`,
taken as a parameter. -/
def Whisper.openTrace (envOpen : Envelope → Option PrivateKey → OpenResult) (w : Whisper)
    (envelope : Envelope) : Option Message × List (Option PrivateKey) :=
  if w.keys.length = 0 then
    match envOpen envelope none with
    | .ok message => (some message, [none])
    | _ =>
      ((openKeys envOpen envelope (w.keys.map Prod.snd)).1,
        none :: (openKeys envOpen envelope (w.keys.map Prod.snd)).2)
  else
    openKeys envOpen envelope (w.keys.map Prod.snd)

/-- Method `Whisper.open`: the message returned, `none` for `nil`. -/
def Whisper.open (envOpen : Envelope → Option PrivateKey → OpenResult) (w : Whisper)
    (envelope : Envelope) : Option Message :=
  (Whisper.openTrace envOpen w envelope).1

/-- The match key `filterer` built by `createFilter`; `M` is the type of topic matchers. -/
structure Filterer (M : Type) where
  «to» : List Nat
  «from» : List Nat
  matcher : M

/-- The loop `for i, topic := range topics { matcher[i] = []Topic{topic} }`, from index
`i` on. -/
def fillRows : Nat → List Topic → List (List Topic) → List (List Topic)
  | _, [], matcher => matcher
  | i, topic :: rest, matcher => fillRows (i + 1) rest (matcher.set i [topic])

/-- The matrix `createFilter` hands to `newTopicMatcher`: `make([][]Topic, len(topics))`
filled by the loop. -/
def topicRows (topics : List Topic) : List (List Topic) :=
  fillRows 0 topics (List.replicate topics.length [])

/-- Function `createFilter`.  `fromECDSAPub` stands for `crypto.FromECDSAPub`, `recover`
for `Message.Recover`, `newTopicMatcher` for the constructor of `topic.go`; the three are
taken as parameters. -/
def createFilter {M : Type} (fromECDSAPub : Option PublicKey → List Nat)
    (recover : Message → Option PublicKey) (newTopicMatcher : List (List Topic) → M)
    (message : Message) (topics : List Topic) : Filterer M :=
  { «to» := fromECDSAPub message.To,
    «from» := fromECDSAPub (recover message),
    matcher := newTopicMatcher (topicRows topics) }

/-- Method `Whisper.postEvent`: the calls of `filters.Notify` it makes, each with its match
key and message. -/
def Whisper.postEvent {M : Type} (envOpen : Envelope → Option PrivateKey → OpenResult)
    (fromECDSAPub : Option PublicKey → List Nat) (recover : Message → Option PublicKey)
    (newTopicMatcher : List (List Topic) → M) (w : Whisper) (envelope : Envelope) :
    List (Filterer M × Message) :=
  match Whisper.open envOpen w envelope with
  | some message =>
    [(createFilter fromECDSAPub recover newTopicMatcher message envelope.Topics, message)]
  | none => []

/-! ## The identity registry and `Send` -/

/-- Method `Whisper.InjectIdentity`: the key is stored under the serialisation of its public
key.  `fromECDSAPub` stands for `crypto.FromECDSAPub`, taken as a parameter. -/
def Whisper.InjectIdentity (fromECDSAPub : Option PublicKey → List Nat) (w : Whisper)
    (key : PrivateKey) : Whisper :=
  { w with keys := mapSet w.keys (fromECDSAPub (some key.PublicKey)) key }

/-- Method `Whisper.NewIdentity`.  `generated` is what `crypto.GenerateKey()` returns; on an
error the method panics with it, which is the `error` result here. -/
def Whisper.NewIdentity (fromECDSAPub : Option PublicKey → List Nat)
    (generated : Except Error PrivateKey) (w : Whisper) : Except Error (Whisper × PrivateKey) :=
  match generated with
  | .error err => .error err
  | .ok key =>
    .ok ({ w with keys := mapSet w.keys (fromECDSAPub (some key.PublicKey)) key }, key)

/-- Method `Whisper.GetIdentity`; the argument is the pointer to the public key, `none` for
`nil`, and so is the result. -/
def Whisper.GetIdentity (fromECDSAPub : Option PublicKey → List Nat) (w : Whisper)
    (key : Option PublicKey) : Option PrivateKey :=
  mapGet w.keys (fromECDSAPub key)

/-- Method `Whisper.HasIdentity`. -/
def Whisper.HasIdentity (fromECDSAPub : Option PublicKey → List Nat) (w : Whisper)
    (key : Option PublicKey) : Bool :=
  (mapGet w.keys (fromECDSAPub key)).isSome

/-- Method `Whisper.Send`. -/
def Whisper.Send (hashOf : Envelope → Hash) (w : Whisper) (envelope : Envelope) :
    Whisper × Option Error :=
  Whisper.add hashOf w envelope

/-! ## Sample data for the concrete instances -/

/-- A stand-in for `Envelope.Hash` in concrete instances: a digest of all five fields. -/
def sampleHash (e : Envelope) : Hash :=
  (e.Expiry :: e.TTL :: e.Nonce :: (e.Topics ++ e.Data)).foldl (fun acc x => 31 * acc + x + 1) 7

/-- An envelope that expires at second 5. -/
def envA : Envelope :=
  { Expiry := 5, TTL := 50, Topics := [1, 2], Data := [4, 7, 104, 105], Nonce := 0 }

/-- An envelope that expires at second 20. -/
def envB : Envelope := { Expiry := 20, TTL := 50, Topics := [3], Data := [0, 104], Nonce := 1 }

/-- The identity that `envA` is sealed to. -/
def keyI : PrivateKey := { PublicKey := { X := 1, Y := 2 }, D := 7 }

/-- Another identity. -/
def keyJ : PrivateKey := { PublicKey := { X := 3, Y := 4 }, D := 9 }

/-- A stand-in for `crypto.FromECDSAPub` in concrete instances. -/
def sampleFromECDSAPub : Option PublicKey → List Nat
  | none => []
  | some key => [4, key.X, key.Y]

/-- A stand-in for `Message.Recover` in concrete instances: no message is signed. -/
def sampleRecover (_ : Message) : Option PublicKey := none

/-- The message read from the bytes `data` of the envelope `e` taken as clear text. -/
def sampleMessage (e : Envelope) (data : List Nat) : Message :=
  { Flags := 0, Signature := [], Payload := data, Sent := e.Expiry - e.TTL, To := none }

/-- A stand-in for `Envelope.Open` in concrete instances.  Data `4 :: d :: body` is `body`
encrypted to the key with secret `d`; any other data is not a ciphertext, which a key meets
with the invalid-public-key error and the clear-text message. -/
def sampleOpen (e : Envelope) : Option PrivateKey → OpenResult
  | none => OpenResult.ok (sampleMessage e e.Data)
  | some key =>
    match e.Data with
    | 4 :: d :: body =>
      if d = key.D then OpenResult.ok (sampleMessage e body) else OpenResult.errOther none
    | _ => OpenResult.errInvalidPublicKey (some (sampleMessage e e.Data))

/-- A node whose only identity is `keyJ`. -/
def nodeJ : Whisper := { New with keys := [([4, 3, 4], keyJ)] }

/-- A node with the identities `keyJ` and `keyI`, iterated in this order. -/
def nodeJI : Whisper := { New with keys := [([4, 3, 4], keyJ), ([4, 1, 2], keyI)] }

/-- A stand-in for `Envelope.Open` in concrete instances that can fail on clear text: a
first byte of 128 or more announces a signature of 65 bytes, and the parse fails when fewer
bytes follow. -/
def sampleOpenSigned (e : Envelope) : Option PrivateKey → OpenResult
  | none =>
    match e.Data with
    | flags :: rest =>
      if 128 ≤ flags ∧ rest.length < 65 then OpenResult.errOther none
      else OpenResult.ok (sampleMessage e e.Data)
    | [] => OpenResult.errOther none
  | some key => sampleOpen e (some key)

/-- An envelope whose clear text announces a signature that is not there. -/
def envC : Envelope := { Expiry := 30, TTL := 50, Topics := [], Data := [128, 1, 2], Nonce := 2 }

/-! ## Auxiliary notions of the proofs -/

/-- The hashes held by the entries of `L` whose timestamp is not after `now`. -/
def staleHashes (now : Nat) : List (Nat × List Hash) → List Hash
  | [] => []
  | (t, s) :: L => if t > now then staleHashes now L else s ++ staleHashes now L


/-- The two tables of the pool describe each other: both are maps (no key twice), a hash
sits in the bucket `t` only if it is pooled with expiry `t`, every pooled envelope is filed
in the bucket of its expiry, and every entry is stored under its own hash. -/
structure PoolInv (hashOf : Envelope → Hash) (w : Whisper) : Prop where
  msgKeys : (mapKeys w.messages).Nodup
  expKeys : (mapKeys w.expirations).Nodup
  sub : ∀ t h, h ∈ bucket w.expirations t →
    ∃ e, mapGet w.messages h = some e ∧ e.Expiry = t
  filed : ∀ h e, mapGet w.messages h = some e → h ∈ bucket w.expirations e.Expiry
  hashed : ∀ h e, mapGet w.messages h = some e → hashOf e = h


/-! ## Facts about maps -/

theorem mapGet_mapSet {K V : Type} [DecidableEq K] (m : List (K × V)) (k : K) (v : V) (k' : K) :
    mapGet (mapSet m k v) k' = if k = k' then some v else mapGet m k' := by
  induction m with
  | nil => simp [mapSet, mapGet]
  | cons p m ih =>
    obtain ⟨a, b⟩ := p
    by_cases hak : a = k
    · subst hak
      by_cases hak' : a = k' <;> simp [mapSet, mapGet, hak']
    · by_cases hak' : a = k'
      · subst hak'
        have hne : ¬ k = a := fun h => hak h.symm
        simp [mapSet, mapGet, hak, hne]
      · simp [mapSet, mapGet, hak, hak', ih]

theorem mapGet_filter {K V : Type} [DecidableEq K] (f : K → Bool) (m : List (K × V)) (k : K) :
    mapGet (m.filter (fun p => f p.1)) k = if f k then mapGet m k else none := by
  induction m with
  | nil => simp [mapGet]
  | cons p m ih =>
    obtain ⟨a, b⟩ := p
    by_cases hfa : f a = true
    · by_cases hak : a = k
      · subst hak
        simp [List.filter_cons, hfa, mapGet]
      · simp [List.filter_cons, hfa, mapGet, hak, ih]
    · by_cases hak : a = k
      · subst hak
        simp [List.filter_cons, hfa, mapGet, ih]
      · simp [List.filter_cons, hfa, mapGet, hak, ih]

theorem mapGet_isSome_iff {K V : Type} [DecidableEq K] (m : List (K × V)) (k : K) :
    (mapGet m k).isSome = true ↔ k ∈ mapKeys m := by
  induction m with
  | nil => simp [mapGet, mapKeys]
  | cons p m ih =>
    obtain ⟨a, b⟩ := p
    by_cases hak : a = k
    · subst hak
      simp [mapGet, mapKeys]
    · have hne : ¬ k = a := fun h => hak h.symm
      simp only [mapGet, hak, if_false, ih]
      simp [mapKeys, hne]

theorem mapGet_eq_none_iff {K V : Type} [DecidableEq K] (m : List (K × V)) (k : K) :
    mapGet m k = none ↔ k ∉ mapKeys m := by
  rw [← mapGet_isSome_iff]
  cases mapGet m k <;> simp

theorem mem_of_mapGet {K V : Type} [DecidableEq K] (m : List (K × V)) (k : K) (v : V)
    (h : mapGet m k = some v) : (k, v) ∈ m := by
  induction m with
  | nil => simp [mapGet] at h
  | cons p m ih =>
    obtain ⟨a, b⟩ := p
    by_cases hak : a = k
    · subst hak
      simp [mapGet] at h
      simp [h]
    · simp only [mapGet, hak, if_false] at h
      exact List.mem_cons_of_mem _ (ih h)

theorem mapGet_of_mem {K V : Type} [DecidableEq K] (m : List (K × V)) (k : K) (v : V)
    (hnd : (mapKeys m).Nodup) (h : (k, v) ∈ m) : mapGet m k = some v := by
  induction m with
  | nil => simp at h
  | cons p m ih =>
    obtain ⟨a, b⟩ := p
    simp only [mapKeys, List.map_cons, List.nodup_cons] at hnd
    rcases List.mem_cons.mp h with heq | hmem
    · injection heq with h1 h2
      subst h1; subst h2
      simp [mapGet]
    · have hk : k ∈ m.map Prod.fst := List.mem_map.mpr ⟨(k, v), hmem, rfl⟩
      have hak : ¬ a = k := fun e => hnd.1 (e ▸ hk)
      simp only [mapGet, hak, if_false]
      exact ih hnd.2 hmem

theorem mapKeys_mapSet {K V : Type} [DecidableEq K] (m : List (K × V)) (k : K) (v : V) :
    mapKeys (mapSet m k v) = if k ∈ mapKeys m then mapKeys m else mapKeys m ++ [k] := by
  induction m with
  | nil => simp [mapSet, mapKeys]
  | cons p m ih =>
    obtain ⟨a, b⟩ := p
    by_cases hak : a = k
    · subst hak
      simp [mapSet, mapKeys]
    · have hne : ¬ k = a := fun h => hak h.symm
      simp only [mapKeys] at ih
      simp only [mapSet, hak, if_false, mapKeys, List.map_cons, List.mem_cons, hne, false_or, ih]
      split <;> simp

theorem mapKeys_mapSet_nodup {K V : Type} [DecidableEq K] (m : List (K × V)) (k : K) (v : V)
    (hnd : (mapKeys m).Nodup) : (mapKeys (mapSet m k v)).Nodup := by
  rw [mapKeys_mapSet]
  split
  · exact hnd
  · rename_i hk
    rw [List.nodup_append]
    refine ⟨hnd, List.nodup_singleton k, ?_⟩
    intro a ha hb
    simp only [List.mem_singleton] at hb
    subst hb
    exact hk ha

theorem foldl_mapDelete {K V : Type} [DecidableEq K] (ks : List K) (m : List (K × V)) :
    ks.foldl mapDelete m = m.filter (fun p => decide (p.1 ∉ ks)) := by
  induction ks generalizing m with
  | nil => simp
  | cons k ks ih =>
    simp only [List.foldl_cons, ih, mapDelete, List.filter_filter]
    apply List.filter_congr
    intro p _
    by_cases h1 : p.1 = k <;> by_cases h2 : p.1 ∈ ks <;> simp [h1, h2, eq_comm]

/-! ## Facts about `expire` -/

theorem mem_staleHashes (now : Nat) (L : List (Nat × List Hash)) (h : Hash) :
    h ∈ staleHashes now L ↔ ∃ t s, (t, s) ∈ L ∧ t ≤ now ∧ h ∈ s := by
  induction L with
  | nil => simp [staleHashes]
  | cons p L ih =>
    obtain ⟨a, b⟩ := p
    by_cases hgt : a > now
    · simp only [staleHashes, hgt, if_true, ih, List.mem_cons, Prod.mk.injEq]
      constructor
      · rintro ⟨t, s, hm, hle, hs⟩
        exact ⟨t, s, Or.inr hm, hle, hs⟩
      · rintro ⟨t, s, hm | hm, hle, hs⟩
        · omega
        · exact ⟨t, s, hm, hle, hs⟩
    · simp only [staleHashes, hgt, if_false, List.mem_append, ih, List.mem_cons, Prod.mk.injEq]
      constructor
      · rintro (hb | ⟨t, s, hm, hle, hs⟩)
        · exact ⟨a, b, Or.inl ⟨rfl, rfl⟩, by omega, hb⟩
        · exact ⟨t, s, Or.inr hm, hle, hs⟩
      · rintro ⟨t, s, hm | hm, hle, hs⟩
        · left
          rw [← hm.2]
          exact hs
        · exact Or.inr ⟨t, s, hm, hle, hs⟩

theorem foldl_expireStep_messages (now : Nat) (L : List (Nat × List Hash)) (w : Whisper) :
    (L.foldl (expireStep now) w).messages
      = w.messages.filter (fun p => decide (p.1 ∉ staleHashes now L)) := by
  induction L generalizing w with
  | nil => simp [staleHashes]
  | cons p L ih =>
    obtain ⟨a, b⟩ := p
    by_cases hgt : a > now
    · simp only [List.foldl_cons, ih, expireStep, hgt, if_true, staleHashes]
    · simp only [List.foldl_cons, ih, expireStep, hgt, if_false, staleHashes, foldl_mapDelete,
        List.filter_filter]
      apply List.filter_congr
      intro q _
      by_cases h1 : q.1 ∈ b <;> by_cases h2 : q.1 ∈ staleHashes now L <;> simp [h1, h2]

theorem foldl_expireStep_spawned (now : Nat) (L : List (Nat × List Hash)) (w : Whisper) :
    (L.foldl (expireStep now) w).spawned = w.spawned := by
  induction L generalizing w with
  | nil => rfl
  | cons p L ih =>
    simp only [List.foldl_cons, ih, expireStep]
    split <;> rfl

theorem foldl_expireStep_keys (now : Nat) (L : List (Nat × List Hash)) (w : Whisper) :
    (L.foldl (expireStep now) w).keys = w.keys := by
  induction L generalizing w with
  | nil => rfl
  | cons p L ih =>
    simp only [List.foldl_cons, ih, expireStep]
    split <;> rfl

theorem foldl_expireStep_get (now : Nat) (L : List (Nat × List Hash)) (w : Whisper) (t : Nat) :
    mapGet (L.foldl (expireStep now) w).expirations t
      = if t ≤ now ∧ t ∈ mapKeys L then some [] else mapGet w.expirations t := by
  induction L generalizing w with
  | nil => simp [mapKeys]
  | cons p L ih =>
    obtain ⟨a, b⟩ := p
    have hkeys : mapKeys ((a, b) :: L) = a :: mapKeys L := rfl
    rw [List.foldl_cons, ih, hkeys]
    by_cases hgt : a > now
    · have hstep : expireStep now w (a, b) = w := by simp [expireStep, hgt]
      rw [hstep]
      by_cases hta : t = a
      · have hnle : ¬ t ≤ now := by omega
        simp [hnle]
      · simp [hta]
    · have hstep : (expireStep now w (a, b)).expirations = mapSet w.expirations a [] := by
        simp [expireStep, hgt]
      rw [hstep, mapGet_mapSet]
      by_cases hta : t = a
      · subst hta
        have hle : t ≤ now := by omega
        simp [hle]
      · have hat : ¬ a = t := fun h => hta h.symm
        simp [hta, hat]

theorem foldl_expireStep_mapKeys (now : Nat) (L : List (Nat × List Hash)) (w : Whisper)
    (hsub : ∀ t ∈ mapKeys L, t ∈ mapKeys w.expirations) :
    mapKeys (L.foldl (expireStep now) w).expirations = mapKeys w.expirations := by
  induction L generalizing w with
  | nil => rfl
  | cons p L ih =>
    obtain ⟨a, b⟩ := p
    have ha : a ∈ mapKeys w.expirations := hsub a (by simp [mapKeys])
    have hstep : mapKeys (expireStep now w (a, b)).expirations = mapKeys w.expirations := by
      unfold expireStep
      split
      · rfl
      · simp [mapKeys_mapSet, ha]
    rw [List.foldl_cons, ih, hstep]
    intro t ht
    rw [hstep]
    exact hsub t (by simp only [mapKeys, List.map_cons, List.mem_cons] at ht ⊢; exact Or.inr ht)

theorem expire_messages (now : Nat) (w : Whisper) :
    (w.expire now).messages
      = w.messages.filter (fun p => decide (p.1 ∉ staleHashes now w.expirations)) :=
  foldl_expireStep_messages now w.expirations w

theorem expire_bucket (now : Nat) (w : Whisper) (t : Nat) :
    bucket (w.expire now).expirations t = if t ≤ now then [] else bucket w.expirations t := by
  unfold bucket Whisper.expire
  rw [foldl_expireStep_get]
  by_cases hle : t ≤ now
  · by_cases hk : t ∈ mapKeys w.expirations
    · simp [hle, hk]
    · have := (mapGet_eq_none_iff w.expirations t).mpr hk
      simp [hle, hk, this]
  · simp [hle]

/-! ## Facts about `add` -/

theorem add_of_pooled (hashOf : Envelope → Hash) (w : Whisper) (e : Envelope)
    (h : (mapGet w.messages (hashOf e)).isSome = true) : Whisper.add hashOf w e = (w, none) := by
  simp [Whisper.add, h]

theorem add_error (hashOf : Envelope → Hash) (w : Whisper) (e : Envelope) :
    (Whisper.add hashOf w e).2 = none := by
  unfold Whisper.add
  simp only
  split_ifs <;> rfl

theorem add_keys (hashOf : Envelope → Hash) (w : Whisper) (e : Envelope) :
    (Whisper.add hashOf w e).1.keys = w.keys := by
  unfold Whisper.add
  simp only
  split_ifs <;> rfl

theorem add_messages (hashOf : Envelope → Hash) (w : Whisper) (e : Envelope) :
    (Whisper.add hashOf w e).1.messages
      = if (mapGet w.messages (hashOf e)).isSome then w.messages
        else mapSet w.messages (hashOf e) e := by
  unfold Whisper.add
  simp only
  split_ifs <;> rfl

theorem bucket_mapSet (ex : List (Nat × List Hash)) (t : Nat) (s : List Hash) (t' : Nat) :
    bucket (mapSet ex t s) t' = if t = t' then s else bucket ex t' := by
  unfold bucket
  rw [mapGet_mapSet]
  split <;> rfl

theorem add_fresh (hashOf : Envelope → Hash) (w : Whisper) (e : Envelope)
    (hnew : mapGet w.messages (hashOf e) = none)
    (hnot : hashOf e ∉ bucket w.expirations e.Expiry) :
    (Whisper.add hashOf w e).1.spawned = w.spawned ++ [e]
      ∧ (∀ t, bucket (Whisper.add hashOf w e).1.expirations t
          = if e.Expiry = t then bucket w.expirations t ++ [hashOf e] else bucket w.expirations t)
      ∧ ((mapKeys w.expirations).Nodup →
          (mapKeys (Whisper.add hashOf w e).1.expirations).Nodup) := by
  by_cases hb : (mapGet w.expirations e.Expiry).isNone = true
  · have hb' : mapGet w.expirations e.Expiry = none := by
      cases hx : mapGet w.expirations e.Expiry <;> simp [hx] at hb ⊢
    have hbk : bucket w.expirations e.Expiry = [] := by simp [bucket, hb']
    have hadd : Whisper.add hashOf w e
        = ({ w with
              messages := mapSet w.messages (hashOf e) e,
              expirations := mapSet (mapSet w.expirations e.Expiry []) e.Expiry [hashOf e],
              spawned := w.spawned ++ [e] }, none) := by
      simp [Whisper.add, hnew, hb', bucket_mapSet, setHas, setAdd]
    rw [hadd]
    refine ⟨rfl, ?_, ?_⟩
    · intro t
      simp only [bucket_mapSet]
      by_cases ht : e.Expiry = t
      · subst ht
        simp [hbk]
      · simp [ht]
    · intro hnd
      exact mapKeys_mapSet_nodup _ _ _ (mapKeys_mapSet_nodup _ _ _ hnd)
  · have hadd : Whisper.add hashOf w e
        = ({ w with
              messages := mapSet w.messages (hashOf e) e,
              expirations := mapSet w.expirations e.Expiry
                (bucket w.expirations e.Expiry ++ [hashOf e]),
              spawned := w.spawned ++ [e] }, none) := by
      simp [Whisper.add, hnew, hb, setHas, setAdd, hnot]
    rw [hadd]
    refine ⟨rfl, ?_, ?_⟩
    · intro t
      simp only [bucket_mapSet]
      by_cases ht : e.Expiry = t
      · subst ht
        simp
      · simp [ht]
    · intro hnd
      exact mapKeys_mapSet_nodup _ _ _ hnd

/-! ## The pool invariant -/

theorem poolInv_New (hashOf : Envelope → Hash) : PoolInv hashOf New := by
  refine ⟨by simp [New, mapKeys], by simp [New, mapKeys], ?_, ?_, ?_⟩
  · intro t h hm
    simp [New, bucket, mapGet] at hm
  · intro h e hm
    simp [New, mapGet] at hm
  · intro h e hm
    simp [New, mapGet] at hm

theorem not_mem_bucket_of_fresh (hashOf : Envelope → Hash) (w : Whisper)
    (hinv : PoolInv hashOf w) (h : Hash) (hnew : mapGet w.messages h = none) (t : Nat) :
    h ∉ bucket w.expirations t := by
  intro hm
  obtain ⟨e, he, _⟩ := hinv.sub t h hm
  rw [hnew] at he
  cases he

theorem poolInv_add (hashOf : Envelope → Hash) (w : Whisper) (e : Envelope)
    (hinv : PoolInv hashOf w) : PoolInv hashOf (Whisper.add hashOf w e).1 := by
  by_cases hp : (mapGet w.messages (hashOf e)).isSome = true
  · rw [add_of_pooled hashOf w e hp]
    exact hinv
  · have hnew : mapGet w.messages (hashOf e) = none := by
      cases hx : mapGet w.messages (hashOf e) <;> simp [hx] at hp ⊢
    have hnot := not_mem_bucket_of_fresh hashOf w hinv (hashOf e) hnew e.Expiry
    obtain ⟨_, hbk, hnd⟩ := add_fresh hashOf w e hnew hnot
    have hmsg : (Whisper.add hashOf w e).1.messages = mapSet w.messages (hashOf e) e := by
      rw [add_messages]
      simp [hnew]
    refine ⟨?_, hnd hinv.expKeys, ?_, ?_, ?_⟩
    · rw [hmsg]
      exact mapKeys_mapSet_nodup _ _ _ hinv.msgKeys
    · intro t h hm
      rw [hmsg, mapGet_mapSet]
      rw [hbk] at hm
      by_cases hh : hashOf e = h
      · subst hh
        refine ⟨e, by simp, ?_⟩
        by_cases ht : e.Expiry = t
        · exact ht
        · simp only [ht, if_false] at hm
          exact absurd hm (not_mem_bucket_of_fresh hashOf w hinv (hashOf e) hnew t)
      · simp only [hh, if_false]
        by_cases ht : e.Expiry = t
        · simp only [ht, if_true, List.mem_append, List.mem_singleton] at hm
          rcases hm with hm | hm
          · exact hinv.sub t h hm
          · exact absurd hm.symm hh
        · simp only [ht, if_false] at hm
          exact hinv.sub t h hm
    · intro h e' hm
      rw [hmsg, mapGet_mapSet] at hm
      rw [hbk]
      by_cases hh : hashOf e = h
      · simp only [hh, if_true, Option.some.injEq] at hm
        subst hm
        simp [hh]
      · simp only [hh, if_false] at hm
        have := hinv.filed h e' hm
        by_cases ht : e.Expiry = e'.Expiry
        · simp only [ht, if_true, List.mem_append]
          exact Or.inl this
        · simp only [ht, if_false]
          exact this
    · intro h e' hm
      rw [hmsg, mapGet_mapSet] at hm
      by_cases hh : hashOf e = h
      · simp only [hh, if_true, Option.some.injEq] at hm
        subst hm
        exact hh
      · simp only [hh, if_false] at hm
        exact hinv.hashed h e' hm

theorem mem_staleHashes_iff_bucket (now : Nat) (ex : List (Nat × List Hash))
    (hnd : (mapKeys ex).Nodup) (h : Hash) :
    h ∈ staleHashes now ex ↔ ∃ t, t ≤ now ∧ h ∈ bucket ex t := by
  rw [mem_staleHashes]
  constructor
  · rintro ⟨t, s, hm, hle, hs⟩
    refine ⟨t, hle, ?_⟩
    simp [bucket, mapGet_of_mem ex t s hnd hm, hs]
  · rintro ⟨t, hle, hb⟩
    unfold bucket at hb
    cases hx : mapGet ex t with
    | none => simp [hx] at hb
    | some s =>
      simp only [hx, Option.getD_some] at hb
      exact ⟨t, s, mem_of_mapGet ex t s hx, hle, hb⟩

theorem stale_iff_expired (hashOf : Envelope → Hash) (w : Whisper) (hinv : PoolInv hashOf w)
    (now : Nat) (h : Hash) (e : Envelope) (he : mapGet w.messages h = some e) :
    h ∈ staleHashes now w.expirations ↔ e.Expiry ≤ now := by
  rw [mem_staleHashes_iff_bucket now w.expirations hinv.expKeys]
  constructor
  · rintro ⟨t, hle, hb⟩
    obtain ⟨e', he', ht⟩ := hinv.sub t h hb
    rw [he] at he'
    injection he' with he'
    subst he'
    omega
  · intro hle
    exact ⟨e.Expiry, hle, hinv.filed h e he⟩

theorem expire_get (now : Nat) (w : Whisper) (h : Hash) :
    mapGet (w.expire now).messages h
      = if h ∈ staleHashes now w.expirations then none else mapGet w.messages h := by
  rw [expire_messages]
  rw [mapGet_filter (fun k => decide (k ∉ staleHashes now w.expirations))]
  by_cases hs : h ∈ staleHashes now w.expirations <;> simp [hs]

theorem poolInv_expire (hashOf : Envelope → Hash) (w : Whisper) (now : Nat)
    (hinv : PoolInv hashOf w) : PoolInv hashOf (w.expire now) := by
  refine ⟨?_, ?_, ?_, ?_, ?_⟩
  · rw [expire_messages]
    exact List.Nodup.sublist
      (List.Sublist.map Prod.fst (List.filter_sublist w.messages)) hinv.msgKeys
  · unfold Whisper.expire
    rw [foldl_expireStep_mapKeys now w.expirations w (fun t ht => ht)]
    exact hinv.expKeys
  · intro t h hm
    rw [expire_bucket] at hm
    by_cases hle : t ≤ now
    · simp [hle] at hm
    · simp only [hle, if_false] at hm
      obtain ⟨e, he, ht⟩ := hinv.sub t h hm
      refine ⟨e, ?_, ht⟩
      rw [expire_get]
      have : ¬ h ∈ staleHashes now w.expirations := by
        rw [stale_iff_expired hashOf w hinv now h e he]
        omega
      simp [this, he]
  · intro h e hm
    rw [expire_get] at hm
    by_cases hs : h ∈ staleHashes now w.expirations
    · simp [hs] at hm
    · simp only [hs, if_false] at hm
      rw [expire_bucket]
      have hgt : ¬ e.Expiry ≤ now := by
        rw [← stale_iff_expired hashOf w hinv now h e hm]
        exact hs
      simp only [hgt, if_false]
      exact hinv.filed h e hm
  · intro h e hm
    rw [expire_get] at hm
    by_cases hs : h ∈ staleHashes now w.expirations
    · simp [hs] at hm
    · simp only [hs, if_false] at hm
      exact hinv.hashed h e hm

theorem poolInv_runOps (hashOf : Envelope → Hash) (ops : List PoolOp) (w : Whisper)
    (hinv : PoolInv hashOf w) : PoolInv hashOf (runOps hashOf w ops) := by
  induction ops generalizing w with
  | nil => exact hinv
  | cons op ops ih =>
    unfold runOps
    rw [List.foldl_cons]
    apply ih
    cases op with
    | add e => exact poolInv_add hashOf w e hinv
    | expire now => exact poolInv_expire hashOf w now hinv

theorem bucket_of_mem (ex : List (Nat × List Hash)) (hnd : (mapKeys ex).Nodup) (t : Nat)
    (s : List Hash) (hm : (t, s) ∈ ex) : bucket ex t = s := by
  simp [bucket, mapGet_of_mem ex t s hnd hm]

theorem mem_of_mem_bucket (ex : List (Nat × List Hash)) (t : Nat) (h : Hash)
    (hm : h ∈ bucket ex t) : ∃ s, (t, s) ∈ ex ∧ h ∈ s := by
  unfold bucket at hm
  cases hx : mapGet ex t with
  | none => simp [hx] at hm
  | some s =>
    simp only [hx, Option.getD_some] at hm
    exact ⟨s, mem_of_mapGet ex t s hx, hm⟩

theorem foldl_snoc_snd (l : List (Hash × Envelope)) (init : List Envelope) :
    l.foldl (fun acc p => acc ++ [p.2]) init = init ++ l.map Prod.snd := by
  induction l generalizing init with
  | nil => simp
  | cons p l ih => simp [ih]

theorem envelopes_eq_map (w : Whisper) : w.envelopes = w.messages.map Prod.snd := by
  unfold Whisper.envelopes
  rw [foldl_snoc_snd]
  simp

theorem expire_envelopes (hashOf : Envelope → Hash) (w : Whisper) (hinv : PoolInv hashOf w)
    (now : Nat) :
    (w.expire now).envelopes = w.envelopes.filter (fun e => decide (now < e.Expiry)) := by
  rw [envelopes_eq_map, envelopes_eq_map, expire_messages, List.filter_map]
  congr 1
  apply List.filter_congr
  intro p hp
  obtain ⟨h, e⟩ := p
  have hget := mapGet_of_mem w.messages h e hinv.msgKeys hp
  have hiff := stale_iff_expired hashOf w hinv now h e hget
  by_cases hs : h ∈ staleHashes now w.expirations
  · have : ¬ now < e.Expiry := by have := hiff.mp hs; omega
    simp [hs, this]
  · have : now < e.Expiry := by
      by_contra hlt
      exact hs (hiff.mpr (by omega))
    simp [hs, this]

/-! ## The claims about the pool -/

/-- C1: when the hash of the envelope is already a key of the main map, `add` returns no
error and leaves the whole state as it was: main map, every expiry bucket, and the list of
scheduled notification tasks. -/
theorem add_duplicate_is_noop (hashOf : Envelope → Hash) (w : Whisper) (E : Envelope)
    (hkey : hashOf E ∈ mapKeys w.messages) : Whisper.add hashOf w E = (w, none) :=
  add_of_pooled hashOf w E ((mapGet_isSome_iff w.messages (hashOf E)).mpr hkey)

/-- Instance of C1: adding `envA` a second time to the pool that holds it changes nothing;
the pool holds one entry and one notification task was scheduled. -/
theorem add_duplicate_is_noop_witness :
    sampleHash envA ∈ mapKeys (Whisper.add sampleHash New envA).1.messages
      ∧ Whisper.add sampleHash (Whisper.add sampleHash New envA).1 envA
          = ((Whisper.add sampleHash New envA).1, none)
      ∧ (Whisper.add sampleHash New envA).1.messages.length = 1
      ∧ (Whisper.add sampleHash New envA).1.spawned = [envA] :=
  ⟨by decide,
    add_duplicate_is_noop sampleHash (Whisper.add sampleHash New envA).1 envA (by decide),
    by decide, by decide⟩

/-- C2: after any sequence of `add` and `expire` from the pool of `New`, both tables are
maps, every hash in an expiry bucket is a key of the main map, and every entry of the main
map is in the bucket of its envelope's expiry and in no bucket of another timestamp. -/
theorem pool_invariant (hashOf : Envelope → Hash) (ops : List PoolOp) :
    (mapKeys (runOps hashOf New ops).messages).Nodup
      ∧ (mapKeys (runOps hashOf New ops).expirations).Nodup
      ∧ (∀ t s h, (t, s) ∈ (runOps hashOf New ops).expirations → h ∈ s →
          h ∈ mapKeys (runOps hashOf New ops).messages)
      ∧ (∀ h e, (h, e) ∈ (runOps hashOf New ops).messages →
          (∃ s, (e.Expiry, s) ∈ (runOps hashOf New ops).expirations ∧ h ∈ s)
            ∧ ∀ t s, (t, s) ∈ (runOps hashOf New ops).expirations → h ∈ s →
                t = e.Expiry) := by
  have hinv := poolInv_runOps hashOf ops New (poolInv_New hashOf)
  refine ⟨hinv.msgKeys, hinv.expKeys, ?_, ?_⟩
  · intro t s h hm hs
    have hb : h ∈ bucket (runOps hashOf New ops).expirations t := by
      rw [bucket_of_mem _ hinv.expKeys t s hm]
      exact hs
    obtain ⟨e, he, _⟩ := hinv.sub t h hb
    exact List.mem_map.mpr ⟨(h, e), mem_of_mapGet _ h e he, rfl⟩
  · intro h e hm
    have hget := mapGet_of_mem _ h e hinv.msgKeys hm
    refine ⟨mem_of_mem_bucket _ e.Expiry h (hinv.filed h e hget), ?_⟩
    intro t s hts hs
    have hb : h ∈ bucket (runOps hashOf New ops).expirations t := by
      rw [bucket_of_mem _ hinv.expKeys t s hts]
      exact hs
    obtain ⟨e', he', ht⟩ := hinv.sub t h hb
    rw [hget] at he'
    injection he' with he'
    rw [he']
    exact ht.symm

/-- C3: in a state reached by `add` and `expire`, a pooled envelope whose expiry is not
after `now` is gone after `expire`: its hash is no key of the main map and is in no expiry
bucket.  And an envelope with expiry `now - 1` added to the empty pool is removed by
`expire`, so that `envelopes` returns the empty list. -/
theorem expire_removes_stale (hashOf : Envelope → Hash) (ops : List PoolOp) (E : Envelope)
    (now : Nat) (hpooled : (hashOf E, E) ∈ (runOps hashOf New ops).messages)
    (hnow : E.Expiry ≤ now) :
    hashOf E ∉ mapKeys ((runOps hashOf New ops).expire now).messages
      ∧ (∀ t s, (t, s) ∈ ((runOps hashOf New ops).expire now).expirations → hashOf E ∉ s)
      ∧ (∀ (E1 : Envelope) (now1 : Nat), E1.Expiry + 1 = now1 →
          ((Whisper.add hashOf New E1).1.expire now1).envelopes = []) := by
  have hinv := poolInv_runOps hashOf ops New (poolInv_New hashOf)
  have hinv' := poolInv_expire hashOf _ now hinv
  have hget := mapGet_of_mem _ (hashOf E) E hinv.msgKeys hpooled
  have hstale := (stale_iff_expired hashOf _ hinv now (hashOf E) E hget).mpr hnow
  have hnone : mapGet ((runOps hashOf New ops).expire now).messages (hashOf E) = none := by
    rw [expire_get]
    simp [hstale]
  refine ⟨(mapGet_eq_none_iff _ _).mp hnone, ?_, ?_⟩
  · intro t s hts hs
    have hb : hashOf E ∈ bucket ((runOps hashOf New ops).expire now).expirations t := by
      rw [bucket_of_mem _ hinv'.expKeys t s hts]
      exact hs
    exact not_mem_bucket_of_fresh hashOf _ hinv' (hashOf E) hnone t hb
  · intro E1 now1 h1
    have hinv1 : PoolInv hashOf (Whisper.add hashOf New E1).1 :=
      poolInv_add hashOf New E1 (poolInv_New hashOf)
    rw [expire_envelopes hashOf _ hinv1, envelopes_eq_map, add_messages]
    have hlt : ¬ now1 < E1.Expiry := by omega
    simp [New, mapGet, mapSet, hlt]

/-- Instance of C3 (scenario S3): `envA` has expiry 5 = 6 - 1; it is pooled after `add`,
and after `expire` at second 6 it is in neither table and `envelopes` is empty. -/
theorem expire_removes_stale_witness :
    (sampleHash envA, envA) ∈ (runOps sampleHash New [PoolOp.add envA]).messages
      ∧ envA.Expiry ≤ 6
      ∧ sampleHash envA ∉ mapKeys ((runOps sampleHash New [PoolOp.add envA]).expire 6).messages
      ∧ ((runOps sampleHash New [PoolOp.add envA]).expire 6).envelopes = [] :=
  ⟨by decide, by decide,
    (expire_removes_stale sampleHash [PoolOp.add envA] envA 6 (by decide) (by decide)).1,
    by decide⟩

/-- C5: in a state reached by `add` and `expire`, `expire` leaves alone every bucket whose
timestamp is after `now` and every main-map entry filed in such a bucket; afterwards
`envelopes` returns exactly the pooled envelopes whose expiry is after `now`. -/
theorem expire_keeps_live (hashOf : Envelope → Hash) (ops : List PoolOp) (now : Nat) :
    (∀ t, now < t →
        mapGet ((runOps hashOf New ops).expire now).expirations t
          = mapGet (runOps hashOf New ops).expirations t)
      ∧ (∀ t s h, (t, s) ∈ (runOps hashOf New ops).expirations → now < t → h ∈ s →
          mapGet ((runOps hashOf New ops).expire now).messages h
            = mapGet (runOps hashOf New ops).messages h)
      ∧ (∀ e, e ∈ ((runOps hashOf New ops).expire now).envelopes
          ↔ e ∈ (runOps hashOf New ops).envelopes ∧ now < e.Expiry)
      ∧ ((runOps hashOf New ops).expire now).envelopes
          = (runOps hashOf New ops).envelopes.filter (fun e => decide (now < e.Expiry)) := by
  have hinv := poolInv_runOps hashOf ops New (poolInv_New hashOf)
  refine ⟨?_, ?_, ?_, expire_envelopes hashOf _ hinv now⟩
  · intro t ht
    unfold Whisper.expire
    rw [foldl_expireStep_get]
    have : ¬ t ≤ now := by omega
    simp [this]
  · intro t s h hts ht hs
    have hb : h ∈ bucket (runOps hashOf New ops).expirations t := by
      rw [bucket_of_mem _ hinv.expKeys t s hts]
      exact hs
    obtain ⟨e, he, hexp⟩ := hinv.sub t h hb
    rw [expire_get]
    have : ¬ h ∈ staleHashes now (runOps hashOf New ops).expirations := by
      rw [stale_iff_expired hashOf _ hinv now h e he]
      omega
    simp [this]
  · intro e
    rw [expire_envelopes hashOf _ hinv now]
    simp [List.mem_filter]

/-! ## Notification tasks -/

theorem add_spawned (hashOf : Envelope → Hash) (w : Whisper) (hinv : PoolInv hashOf w)
    (e : Envelope) :
    (Whisper.add hashOf w e).1.spawned
      = if hashOf e ∈ mapKeys w.messages then w.spawned else w.spawned ++ [e] := by
  by_cases hk : hashOf e ∈ mapKeys w.messages
  · rw [add_of_pooled hashOf w e ((mapGet_isSome_iff _ _).mpr hk)]
    simp [hk]
  · have hnew := (mapGet_eq_none_iff _ _).mpr hk
    have hnot := not_mem_bucket_of_fresh hashOf w hinv (hashOf e) hnew e.Expiry
    rw [(add_fresh hashOf w e hnew hnot).1]
    simp [hk]

theorem mem_mapKeys_add (hashOf : Envelope → Hash) (w : Whisper) (e : Envelope) (h : Hash) :
    h ∈ mapKeys (Whisper.add hashOf w e).1.messages
      ↔ h = hashOf e ∨ h ∈ mapKeys w.messages := by
  rw [add_messages]
  by_cases hp : (mapGet w.messages (hashOf e)).isSome = true
  · have hk := (mapGet_isSome_iff _ _).mp hp
    simp only [hp, if_true]
    constructor
    · exact Or.inr
    · rintro (rfl | hm)
      · exact hk
      · exact hm
  · have hk : hashOf e ∉ mapKeys w.messages := fun hk => hp ((mapGet_isSome_iff _ _).mpr hk)
    rw [if_neg hp, mapKeys_mapSet, if_neg hk]
    simp only [List.mem_append, List.mem_singleton]
    tauto

theorem adds_spawned (hashOf : Envelope → Hash) (es : List Envelope) (w : Whisper)
    (hinv : PoolInv hashOf w) :
    ∃ fresh : List Envelope,
      (runOps hashOf w (es.map PoolOp.add)).spawned = w.spawned ++ fresh
        ∧ (fresh.map hashOf).Nodup
        ∧ ∀ h, h ∈ fresh.map hashOf ↔ h ∈ es.map hashOf ∧ h ∉ mapKeys w.messages := by
  induction es generalizing w with
  | nil => exact ⟨[], by simp [runOps], by simp, by simp⟩
  | cons e es ih =>
    obtain ⟨fresh, hsp, hnd, hmem⟩ :=
      ih (Whisper.add hashOf w e).1 (poolInv_add hashOf w e hinv)
    have hrun : runOps hashOf w ((e :: es).map PoolOp.add)
        = runOps hashOf (Whisper.add hashOf w e).1 (es.map PoolOp.add) := by
      simp [runOps, applyOp]
    rw [hrun, hsp, add_spawned hashOf w hinv e]
    by_cases hk : hashOf e ∈ mapKeys w.messages
    · refine ⟨fresh, by simp [hk], hnd, ?_⟩
      intro h
      rw [hmem h, mem_mapKeys_add]
      simp only [List.map_cons, List.mem_cons]
      constructor
      · rintro ⟨h1, h2⟩
        exact ⟨Or.inr h1, fun hm => h2 (Or.inr hm)⟩
      · rintro ⟨h1 | h1, h2⟩
        · exact absurd (h1 ▸ hk) h2
        · refine ⟨h1, ?_⟩
          rintro (h3 | h3)
          · exact h2 (h3 ▸ hk)
          · exact h2 h3
    · refine ⟨e :: fresh, by simp [hk], ?_, ?_⟩
      · rw [List.map_cons, List.nodup_cons]
        refine ⟨?_, hnd⟩
        intro hm
        have := ((hmem (hashOf e)).mp hm).2
        exact this ((mem_mapKeys_add hashOf w e (hashOf e)).mpr (Or.inl rfl))
      · intro h
        rw [List.map_cons, List.mem_cons, hmem h, mem_mapKeys_add]
        simp only [List.map_cons, List.mem_cons]
        constructor
        · rintro (h1 | ⟨h1, h2⟩)
          · exact ⟨Or.inl h1, h1 ▸ hk⟩
          · exact ⟨Or.inr h1, fun hm => h2 (Or.inr hm)⟩
        · rintro ⟨h1 | h1, h2⟩
          · exact Or.inl h1
          · by_cases he : h = hashOf e
            · exact Or.inl he
            · refine Or.inr ⟨h1, ?_⟩
              rintro (h3 | h3)
              · exact he h3
              · exact h2 h3

/-- C4, as the code has it: in a state reached by `add` and `expire`, `expire` schedules no
notification task, and `add` schedules exactly one when the hash of the envelope is not a
key of the main map at that moment and none when it is.  Hence over any further sequence of
`add` alone the tasks scheduled are one for each distinct hash that was not pooled before,
no hash twice. -/
theorem postEvent_once_per_insertion (hashOf : Envelope → Hash) (ops : List PoolOp)
    (es : List Envelope) :
    (∀ now, ((runOps hashOf New ops).expire now).spawned = (runOps hashOf New ops).spawned)
      ∧ (∀ e, (Whisper.add hashOf (runOps hashOf New ops) e).1.spawned
          = if hashOf e ∈ mapKeys (runOps hashOf New ops).messages
            then (runOps hashOf New ops).spawned
            else (runOps hashOf New ops).spawned ++ [e])
      ∧ ∃ fresh : List Envelope,
          (runOps hashOf (runOps hashOf New ops) (es.map PoolOp.add)).spawned
              = (runOps hashOf New ops).spawned ++ fresh
            ∧ (fresh.map hashOf).Nodup
            ∧ ∀ h, h ∈ fresh.map hashOf
                ↔ h ∈ es.map hashOf ∧ h ∉ mapKeys (runOps hashOf New ops).messages := by
  have hinv := poolInv_runOps hashOf ops New (poolInv_New hashOf)
  exact ⟨fun now => foldl_expireStep_spawned now _ _, add_spawned hashOf _ hinv,
    adds_spawned hashOf es _ hinv⟩

/-- C4 fails as stated: `envA` is added, removed by `expire` at second 10, and added again;
the pool accepts it both times and two notification tasks are scheduled for its one hash. -/
theorem postEvent_twice_after_expire :
    (runOps sampleHash New [PoolOp.add envA, PoolOp.expire 10, PoolOp.add envA]).spawned
        = [envA, envA]
      ∧ ((runOps sampleHash New
            [PoolOp.add envA, PoolOp.expire 10, PoolOp.add envA]).spawned.map sampleHash).count
          (sampleHash envA) = 2 := by
  decide

/-! ## The inbound loop -/

theorem injectAll_fst (hashOf : Envelope → Hash) (L : List Envelope) (w : Whisper) (p : Peer) :
    (injectAll hashOf w p L).1 = runOps hashOf w (L.map PoolOp.add) := by
  induction L generalizing w p with
  | nil => rfl
  | cons e L ih =>
    rw [injectAll, ih]
    simp [runOps, applyOp]

theorem mem_setAdd {A : Type} [DecidableEq A] (s : List A) (a b : A) :
    b ∈ setAdd s a ↔ b = a ∨ b ∈ s := by
  unfold setAdd
  split
  · rename_i ha
    constructor
    · exact Or.inr
    · rintro (rfl | hb)
      · exact ha
      · exact hb
  · simp only [List.mem_append, List.mem_singleton]
    tauto

theorem injectAll_known (hashOf : Envelope → Hash) (L : List Envelope) (w : Whisper) (p : Peer)
    (h : Hash) :
    h ∈ (injectAll hashOf w p L).2.known ↔ h ∈ L.map hashOf ∨ h ∈ p.known := by
  induction L generalizing w p with
  | nil => simp [injectAll]
  | cons e L ih =>
    rw [injectAll, ih]
    simp only [Peer.mark, mem_setAdd, List.map_cons, List.mem_cons]
    tauto

theorem mem_mapKeys_adds (hashOf : Envelope → Hash) (L : List Envelope) (w : Whisper)
    (h : Hash) :
    h ∈ mapKeys (runOps hashOf w (L.map PoolOp.add)).messages
      ↔ h ∈ L.map hashOf ∨ h ∈ mapKeys w.messages := by
  induction L generalizing w with
  | nil => simp [runOps]
  | cons e L ih =>
    have hrun : runOps hashOf w ((e :: L).map PoolOp.add)
        = runOps hashOf (Whisper.add hashOf w e).1 (L.map PoolOp.add) := by
      simp [runOps, applyOp]
    rw [hrun, ih, mem_mapKeys_add]
    simp only [List.map_cons, List.mem_cons]
    tauto

theorem handlePeer_error (hashOf : Envelope → Hash) (reads : List (Except Error Msg))
    (w : Whisper) (p : Peer) :
    (Whisper.handlePeer hashOf w p reads).2.2 = firstReadError reads := by
  induction reads generalizing w p with
  | nil => rfl
  | cons r reads ih =>
    cases r with
    | error err => rfl
    | ok packet =>
      unfold Whisper.handlePeer firstReadError
      cases packet.Decoded with
      | none => exact ih w p
      | some L => exact ih _ _

/-- C6, as the code has it: the read loop never looks at the packet code.  A packet is
handled the same whatever its code, `0x01` or not; it is skipped without any effect when it
does not decode; the loop does not return after it, and `handlePeer` returns only the error
of a later failed read. -/
theorem handlePeer_ignores_packet_code (hashOf : Envelope → Hash) (w : Whisper) (p : Peer)
    (packet : Msg) (code : Nat) (rest : List (Except Error Msg)) :
    Whisper.handlePeer hashOf w p (Except.ok { packet with Code := code } :: rest)
        = Whisper.handlePeer hashOf w p
            (Except.ok { packet with Code := messagesCode } :: rest)
      ∧ (Whisper.handlePeer hashOf w p [Except.ok { packet with Code := code }]).2.2 = none
      ∧ (packet.Decoded = none →
          Whisper.handlePeer hashOf w p (Except.ok { packet with Code := code } :: rest)
            = Whisper.handlePeer hashOf w p rest)
      ∧ (Whisper.handlePeer hashOf w p (Except.ok { packet with Code := code } :: rest)).2.2
          = firstReadError rest := by
  refine ⟨?_, ?_, ?_, ?_⟩
  · rw [Whisper.handlePeer, Whisper.handlePeer]
  · rw [handlePeer_error]
    rfl
  · intro hdec
    rw [Whisper.handlePeer]
    simp only [hdec]
  · rw [handlePeer_error]
    rfl

/-- Instance of C6: a packet with the status code `0x00` that does not decode is skipped,
and the envelope of the next packet is pooled. -/
theorem handlePeer_ignores_packet_code_witness :
    statusCode ≠ messagesCode
      ∧ Whisper.handlePeer sampleHash New { known := [] }
          [Except.ok { Code := statusCode, Decoded := none },
            Except.ok { Code := messagesCode, Decoded := some [envB] }]
        = Whisper.handlePeer sampleHash New { known := [] }
            [Except.ok { Code := messagesCode, Decoded := some [envB] }] :=
  ⟨by decide,
    (handlePeer_ignores_packet_code sampleHash New { known := [] }
      { Code := messagesCode, Decoded := none } statusCode
      [Except.ok { Code := messagesCode, Decoded := some [envB] }]).2.2.1 rfl⟩

/-- C6 fails as stated: the first packet read has the status code `0x00`, not `0x01`, and
decodes to the list holding `envA`.  The loop does not stop: `envA` is pooled and marked
known, the next packet is processed too, and `handlePeer` has not returned. -/
theorem handlePeer_unknown_code_continues :
    statusCode ≠ messagesCode
      ∧ Whisper.handlePeer sampleHash New { known := [] }
          [Except.ok { Code := statusCode, Decoded := some [envA] },
            Except.ok { Code := messagesCode, Decoded := some [envB] }]
        = (runOps sampleHash New [PoolOp.add envA, PoolOp.add envB],
            { known := [sampleHash envA, sampleHash envB] }, none)
      ∧ sampleHash envA ∈ mapKeys (Whisper.handlePeer sampleHash New { known := [] }
          [Except.ok { Code := statusCode, Decoded := some [envA] }]).1.messages := by
  decide

/-- C7: a packet that decodes to the list `L` is processed by `add` and `mark` on each
envelope of `L` in order: the pool becomes the one reached by adding the envelopes of `L`
one after the other, every hash of `L` is a key of the main map and is in the peer's known
set, `handlePeer` has not returned, and the loop goes on with the next packet from that
state. -/
theorem handlePeer_injects_packet (hashOf : Envelope → Hash) (w : Whisper) (p : Peer)
    (packet : Msg) (L : List Envelope) (rest : List (Except Error Msg))
    (hdec : packet.Decoded = some L) :
    Whisper.handlePeer hashOf w p [Except.ok packet]
        = ((injectAll hashOf w p L).1, (injectAll hashOf w p L).2, none)
      ∧ (injectAll hashOf w p L).1 = runOps hashOf w (L.map PoolOp.add)
      ∧ (∀ e ∈ L, hashOf e ∈ mapKeys (injectAll hashOf w p L).1.messages)
      ∧ (∀ e ∈ L, hashOf e ∈ (injectAll hashOf w p L).2.known)
      ∧ Whisper.handlePeer hashOf w p (Except.ok packet :: rest)
          = Whisper.handlePeer hashOf (injectAll hashOf w p L).1
              (injectAll hashOf w p L).2 rest := by
  refine ⟨?_, injectAll_fst hashOf L w p, ?_, ?_, ?_⟩
  · rw [Whisper.handlePeer, hdec]
    rfl
  · intro e he
    rw [injectAll_fst, mem_mapKeys_adds]
    exact Or.inl (List.mem_map.mpr ⟨e, he, rfl⟩)
  · intro e he
    rw [injectAll_known]
    exact Or.inl (List.mem_map.mpr ⟨e, he, rfl⟩)
  · rw [Whisper.handlePeer, hdec]

/-- Instance of C7: a packet carrying `envA`, `envB`, `envA`. -/
theorem handlePeer_injects_packet_witness :
    (Msg.mk messagesCode (some [envA, envB, envA])).Decoded = some [envA, envB, envA]
      ∧ Whisper.handlePeer sampleHash New { known := [] }
          [Except.ok (Msg.mk messagesCode (some [envA, envB, envA]))]
        = ((injectAll sampleHash New { known := [] } [envA, envB, envA]).1,
            (injectAll sampleHash New { known := [] } [envA, envB, envA]).2, none)
      ∧ mapKeys (injectAll sampleHash New { known := [] } [envA, envB, envA]).1.messages
          = [sampleHash envA, sampleHash envB]
      ∧ (injectAll sampleHash New { known := [] } [envA, envB, envA]).2.known
          = [sampleHash envA, sampleHash envB] :=
  ⟨rfl,
    (handlePeer_injects_packet sampleHash New { known := [] }
      (Msg.mk messagesCode (some [envA, envB, envA])) [envA, envB, envA] [] rfl).1,
    by decide, by decide⟩

/-! ## `open`, `postEvent`, `createFilter` -/

theorem openKeys_append (envOpen : Envelope → Option PrivateKey → OpenResult) (E : Envelope)
    (before rest : List PrivateKey)
    (hbefore : ∀ key ∈ before, ∃ m, envOpen E (some key) = OpenResult.errOther m) :
    openKeys envOpen E (before ++ rest)
      = ((openKeys envOpen E rest).1, before.map some ++ (openKeys envOpen E rest).2) := by
  induction before with
  | nil => simp
  | cons key before ih =>
    obtain ⟨m, hm⟩ := hbefore key (List.mem_cons_self _ _)
    have ih' := ih (fun k hk => hbefore k (List.mem_cons_of_mem _ hk))
    rw [List.cons_append, openKeys, hm]
    simp only [ih', List.map_cons, List.cons_append]

theorem openTrace_of_keys (envOpen : Envelope → Option PrivateKey → OpenResult) (w : Whisper)
    (E : Envelope) (hkeys : w.keys ≠ []) :
    Whisper.openTrace envOpen w E = openKeys envOpen E (w.keys.map Prod.snd) := by
  unfold Whisper.openTrace
  have : ¬ w.keys.length = 0 := by
    intro h
    exact hkeys (List.length_eq_zero.mp h)
  rw [if_neg this]

theorem set_length_append {A : Type} (done : List A) (x y : A) (l : List A) :
    (done ++ x :: l).set done.length y = done ++ y :: l := by
  induction done with
  | nil => rfl
  | cons d done ih => simp [ih]

theorem fillRows_append (topics : List Topic) (done : List (List Topic)) :
    fillRows done.length topics (done ++ List.replicate topics.length [])
      = done ++ topics.map (fun t => [t]) := by
  induction topics generalizing done with
  | nil => simp [fillRows]
  | cons t topics ih =>
    have h := ih (done ++ [[t]])
    simp only [List.length_append, List.length_singleton, List.append_assoc,
      List.singleton_append] at h
    simp only [fillRows, List.length_cons, List.replicate_succ, set_length_append, List.map_cons]
    exact h

theorem topicRows_eq_map (topics : List Topic) :
    topicRows topics = topics.map (fun t => [t]) := by
  have h := fillRows_append topics []
  simpa [topicRows] using h

/-- C8: with at least one identity configured, if `Envelope.Open` fails for every identity
with an error other than the invalid-public-key error, `open` returns nothing and
`postEvent` makes no call of `Notify`. -/
theorem open_wrong_recipient {M : Type} (envOpen : Envelope → Option PrivateKey → OpenResult)
    (fromECDSAPub : Option PublicKey → List Nat) (recover : Message → Option PublicKey)
    (newTopicMatcher : List (List Topic) → M) (w : Whisper) (E : Envelope)
    (hkeys : w.keys ≠ [])
    (hfail : ∀ key ∈ w.keys.map Prod.snd, ∃ m, envOpen E (some key) = OpenResult.errOther m) :
    Whisper.open envOpen w E = none
      ∧ Whisper.postEvent envOpen fromECDSAPub recover newTopicMatcher w E = [] := by
  have hopen : Whisper.open envOpen w E = none := by
    unfold Whisper.open
    rw [openTrace_of_keys envOpen w E hkeys]
    have h := openKeys_append envOpen E (w.keys.map Prod.snd) [] hfail
    rw [List.append_nil] at h
    rw [h]
    rfl
  refine ⟨hopen, ?_⟩
  unfold Whisper.postEvent
  rw [hopen]

/-- C9: if the identities tried before `k` all fail with an ordinary error and the attempt
with `k` fails with the invalid-public-key error, `open` returns what that attempt returned,
unchanged, and `Envelope.Open` has been called with the identities up to `k` and with none
of the later ones. -/
theorem open_invalid_public_key_stops (envOpen : Envelope → Option PrivateKey → OpenResult)
    (w : Whisper) (E : Envelope) (before later : List PrivateKey) (k : PrivateKey)
    (m : Option Message)
    (horder : w.keys.map Prod.snd = before ++ k :: later)
    (hbefore : ∀ key ∈ before, ∃ m1, envOpen E (some key) = OpenResult.errOther m1)
    (hk : envOpen E (some k) = OpenResult.errInvalidPublicKey m) :
    Whisper.open envOpen w E = m
      ∧ (Whisper.openTrace envOpen w E).2 = (before ++ [k]).map some := by
  have hkeys : w.keys ≠ [] := by
    intro h
    rw [h] at horder
    simp at horder
  have htrace : Whisper.openTrace envOpen w E = (m, before.map some ++ [some k]) := by
    rw [openTrace_of_keys envOpen w E hkeys, horder, openKeys_append envOpen E before _ hbefore,
      openKeys, hk]
  unfold Whisper.open
  rw [htrace]
  simp

/-- C10: if the identities tried before `k` fail with an ordinary error and `Envelope.Open`
succeeds with `k`, `open` returns that message with `To` set to the public key of `k`, and
`postEvent` notifies with the key `createFilter` builds from it and the envelope's topics.
And `createFilter` builds the key whose `to` is the serialised `message.To`, whose `from`
is the serialised `Recover()`, and whose matcher is built from a matrix with one row per
topic, row `i` being the single topic `topics[i]`. -/
theorem open_success_and_createFilter {M : Type}
    (envOpen : Envelope → Option PrivateKey → OpenResult)
    (fromECDSAPub : Option PublicKey → List Nat) (recover : Message → Option PublicKey)
    (newTopicMatcher : List (List Topic) → M) (w : Whisper) (E : Envelope)
    (before later : List PrivateKey) (k : PrivateKey) (m : Message)
    (horder : w.keys.map Prod.snd = before ++ k :: later)
    (hbefore : ∀ key ∈ before, ∃ m1, envOpen E (some key) = OpenResult.errOther m1)
    (hk : envOpen E (some k) = OpenResult.ok m) :
    Whisper.open envOpen w E = some { m with To := some k.PublicKey }
      ∧ Whisper.postEvent envOpen fromECDSAPub recover newTopicMatcher w E
          = [(createFilter fromECDSAPub recover newTopicMatcher
                { m with To := some k.PublicKey } E.Topics, { m with To := some k.PublicKey })]
      ∧ (∀ (message : Message) (topics : List Topic),
          (createFilter fromECDSAPub recover newTopicMatcher message topics).«to»
              = fromECDSAPub message.To
            ∧ (createFilter fromECDSAPub recover newTopicMatcher message topics).«from»
              = fromECDSAPub (recover message)
            ∧ (createFilter fromECDSAPub recover newTopicMatcher message topics).matcher
              = newTopicMatcher (topicRows topics)
            ∧ (topicRows topics).length = topics.length
            ∧ ∀ (i : Nat) (t : Topic), topics[i]? = some t →
                (topicRows topics)[i]? = some [t]) := by
  have hkeys : w.keys ≠ [] := by
    intro h
    rw [h] at horder
    simp at horder
  have hopen : Whisper.open envOpen w E = some { m with To := some k.PublicKey } := by
    unfold Whisper.open
    rw [openTrace_of_keys envOpen w E hkeys, horder, openKeys_append envOpen E before _ hbefore,
      openKeys, hk]
  refine ⟨hopen, ?_, ?_⟩
  · unfold Whisper.postEvent
    rw [hopen]
  · intro message topics
    refine ⟨rfl, rfl, rfl, ?_, ?_⟩
    · rw [topicRows_eq_map, List.length_map]
    · intro i t ht
      rw [topicRows_eq_map, List.getElem?_map, ht]
      rfl

/-- Instance of C8 (scenario S6): the node holds `keyJ` only and `envA` is sealed to
`keyI`. -/
theorem open_wrong_recipient_witness :
    nodeJ.keys ≠ []
      ∧ (∀ key ∈ nodeJ.keys.map Prod.snd,
          ∃ m, sampleOpen envA (some key) = OpenResult.errOther m)
      ∧ Whisper.open sampleOpen nodeJ envA = none
      ∧ Whisper.postEvent sampleOpen sampleFromECDSAPub sampleRecover
          (fun rows : List (List Topic) => rows) nodeJ envA = [] :=
  ⟨by decide, fun _ hkey => ⟨none, by simp [nodeJ] at hkey; subst hkey; rfl⟩,
    open_wrong_recipient sampleOpen sampleFromECDSAPub sampleRecover
      (fun rows : List (List Topic) => rows) nodeJ envA (by decide)
      (fun _ hkey => ⟨none, by simp [nodeJ] at hkey; subst hkey; rfl⟩)⟩

/-- Instance of C9: `envB` is not a ciphertext; the attempt with `keyJ`, the first identity,
meets the invalid-public-key error, and `keyI` is never tried. -/
theorem open_invalid_public_key_stops_witness :
    nodeJI.keys.map Prod.snd = [] ++ keyJ :: [keyI]
      ∧ sampleOpen envB (some keyJ)
          = OpenResult.errInvalidPublicKey (some (sampleMessage envB envB.Data))
      ∧ Whisper.open sampleOpen nodeJI envB = some (sampleMessage envB envB.Data)
      ∧ (Whisper.openTrace sampleOpen nodeJI envB).2 = ([] ++ [keyJ]).map some :=
  ⟨rfl, rfl,
    open_invalid_public_key_stops sampleOpen nodeJI envB [] [keyI] keyJ
      (some (sampleMessage envB envB.Data)) rfl (fun _ hkey => by cases hkey) rfl⟩

/-- Instance of C10 (scenario S1): `keyJ` fails on `envA`, `keyI` opens it. -/
theorem open_success_and_createFilter_witness :
    nodeJI.keys.map Prod.snd = [keyJ] ++ keyI :: []
      ∧ (∀ key ∈ [keyJ], ∃ m1, sampleOpen envA (some key) = OpenResult.errOther m1)
      ∧ sampleOpen envA (some keyI) = OpenResult.ok (sampleMessage envA [104, 105])
      ∧ Whisper.open sampleOpen nodeJI envA
          = some { sampleMessage envA [104, 105] with To := some keyI.PublicKey }
      ∧ topicRows envA.Topics = [[1], [2]] :=
  ⟨rfl, fun _ hkey => ⟨none, by simp at hkey; subst hkey; rfl⟩, rfl,
    (open_success_and_createFilter sampleOpen sampleFromECDSAPub sampleRecover
      (fun rows : List (List Topic) => rows) nodeJI envA [keyJ] [] keyI
      (sampleMessage envA [104, 105]) rfl
      (fun _ hkey => ⟨none, by simp at hkey; subst hkey; rfl⟩) rfl).1,
    by decide⟩

/-! ## The identity registry -/

/-- C11: after `InjectIdentity(k)`, `GetIdentity` of the public key of `k` returns `k` and
`HasIdentity` is true, and for every public key with another serialisation both return what
they returned before.  `NewIdentity` does to the registry what `InjectIdentity` does with
the generated key, which it returns; it panics when key generation fails. -/
theorem identity_round_trip (fromECDSAPub : Option PublicKey → List Nat) (w : Whisper)
    (k : PrivateKey) :
    Whisper.GetIdentity fromECDSAPub (Whisper.InjectIdentity fromECDSAPub w k)
        (some k.PublicKey) = some k
      ∧ Whisper.HasIdentity fromECDSAPub (Whisper.InjectIdentity fromECDSAPub w k)
          (some k.PublicKey) = true
      ∧ (∀ pub : Option PublicKey, fromECDSAPub pub ≠ fromECDSAPub (some k.PublicKey) →
          Whisper.GetIdentity fromECDSAPub (Whisper.InjectIdentity fromECDSAPub w k) pub
              = Whisper.GetIdentity fromECDSAPub w pub
            ∧ Whisper.HasIdentity fromECDSAPub (Whisper.InjectIdentity fromECDSAPub w k) pub
              = Whisper.HasIdentity fromECDSAPub w pub)
      ∧ Whisper.NewIdentity fromECDSAPub (Except.ok k) w
          = Except.ok (Whisper.InjectIdentity fromECDSAPub w k, k)
      ∧ (∀ err : Error, Whisper.NewIdentity fromECDSAPub (Except.error err) w
          = Except.error err) := by
  refine ⟨?_, ?_, ?_, rfl, fun _ => rfl⟩
  · simp [Whisper.GetIdentity, Whisper.InjectIdentity, mapGet_mapSet]
  · simp [Whisper.HasIdentity, Whisper.InjectIdentity, mapGet_mapSet]
  · intro pub hne
    have hne' : ¬ fromECDSAPub (some k.PublicKey) = fromECDSAPub pub := fun h => hne h.symm
    simp [Whisper.GetIdentity, Whisper.HasIdentity, Whisper.InjectIdentity, mapGet_mapSet, hne']

/-- Instance of C11: `keyI` is injected into the node that holds `keyJ`; `keyI` is found
afterwards and the lookup of `keyJ` is as before. -/
theorem identity_round_trip_witness :
    sampleFromECDSAPub (some keyJ.PublicKey) ≠ sampleFromECDSAPub (some keyI.PublicKey)
      ∧ Whisper.GetIdentity sampleFromECDSAPub
          (Whisper.InjectIdentity sampleFromECDSAPub nodeJ keyI) (some keyI.PublicKey)
        = some keyI
      ∧ Whisper.GetIdentity sampleFromECDSAPub
          (Whisper.InjectIdentity sampleFromECDSAPub nodeJ keyI) (some keyJ.PublicKey)
        = Whisper.GetIdentity sampleFromECDSAPub nodeJ (some keyJ.PublicKey)
      ∧ Whisper.InjectIdentity sampleFromECDSAPub nodeJ keyI = nodeJI :=
  ⟨by decide, (identity_round_trip sampleFromECDSAPub nodeJ keyI).1,
    ((identity_round_trip sampleFromECDSAPub nodeJ keyI).2.2.1 (some keyJ.PublicKey)
      (by decide)).1,
    by decide⟩

/-! ## `open` without identities -/

theorem openKeys_trace_some (envOpen : Envelope → Option PrivateKey → OpenResult)
    (E : Envelope) (keys : List PrivateKey) : none ∉ (openKeys envOpen E keys).2 := by
  induction keys with
  | nil => simp [openKeys]
  | cons key keys ih =>
    unfold openKeys
    cases envOpen E (some key) with
    | ok m => simp
    | errInvalidPublicKey m => simp
    | errOther m => simpa using ih

/-- C12: with no identity configured, `open` makes the one call `Envelope.Open(nil)` and
returns its message, unchanged, when the call succeeds, and nothing when it fails; with at
least one identity configured `Envelope.Open(nil)` is never called. -/
theorem open_without_identity (envOpen : Envelope → Option PrivateKey → OpenResult)
    (w : Whisper) (E : Envelope) :
    (w.keys = [] →
        (∀ m, envOpen E none = OpenResult.ok m →
            Whisper.open envOpen w E = some m
              ∧ (Whisper.openTrace envOpen w E).2 = [none])
          ∧ ((∀ m, envOpen E none ≠ OpenResult.ok m) →
            Whisper.open envOpen w E = none
              ∧ (Whisper.openTrace envOpen w E).2 = [none]))
      ∧ (w.keys ≠ [] → none ∉ (Whisper.openTrace envOpen w E).2) := by
  refine ⟨?_, ?_⟩
  · intro hkeys
    refine ⟨?_, ?_⟩
    · intro m hm
      simp [Whisper.open, Whisper.openTrace, hkeys, hm]
    · intro hfail
      unfold Whisper.open Whisper.openTrace
      cases hres : envOpen E none with
      | ok m => exact absurd hres (hfail m)
      | errInvalidPublicKey m => simp [hkeys, openKeys]
      | errOther m => simp [hkeys, openKeys]
  · intro hkeys
    rw [openTrace_of_keys envOpen w E hkeys]
    exact openKeys_trace_some envOpen E _

/-- Instance of C12: the node of `New` has no identity; the clear text of `envB` parses and
is returned with `To` unset, the clear text of `envC` does not parse and nothing is
returned; the node `nodeJ` has an identity and never calls `Open(nil)`. -/
theorem open_without_identity_witness :
    New.keys = []
      ∧ sampleOpenSigned envB none = OpenResult.ok (sampleMessage envB envB.Data)
      ∧ Whisper.open sampleOpenSigned New envB = some (sampleMessage envB envB.Data)
      ∧ (sampleMessage envB envB.Data).To = none
      ∧ (∀ m, sampleOpenSigned envC none ≠ OpenResult.ok m)
      ∧ Whisper.open sampleOpenSigned New envC = none
      ∧ nodeJ.keys ≠ []
      ∧ none ∉ (Whisper.openTrace sampleOpenSigned nodeJ envC).2 :=
  ⟨rfl, rfl,
    (((open_without_identity sampleOpenSigned New envB).1 rfl).1
      (sampleMessage envB envB.Data) rfl).1,
    rfl, fun m h => by simp [sampleOpenSigned, envC] at h,
    (((open_without_identity sampleOpenSigned New envC).1 rfl).2
      (fun m h => by simp [sampleOpenSigned, envC] at h)).1,
    by decide, (open_without_identity sampleOpenSigned nodeJ envC).2 (by decide)⟩

/-! ## `add` performs no validation -/

theorem add_bucket_mem (hashOf : Envelope → Hash) (w : Whisper) (e : Envelope)
    (hnew : mapGet w.messages (hashOf e) = none) :
    hashOf e ∈ bucket (Whisper.add hashOf w e).1.expirations e.Expiry := by
  by_cases hnot : hashOf e ∈ bucket w.expirations e.Expiry
  · have hsome : (mapGet w.expirations e.Expiry).isNone = false := by
      cases hx : mapGet w.expirations e.Expiry with
      | none => simp [bucket, hx] at hnot
      | some s => rfl
    have hadd : Whisper.add hashOf w e
        = ({ w with messages := mapSet w.messages (hashOf e) e }, none) := by
      simp [Whisper.add, hnew, hsome, setHas, hnot]
    rw [hadd]
    exact hnot
  · rw [(add_fresh hashOf w e hnew hnot).2.1]
    simp

/-- C13: `add` returns no error in any state and for any envelope, and `Send` is `add`.
An envelope whose hash is not a key of the main map is stored under its hash and its hash is
in the bucket of its expiry afterwards; `add` takes no clock reading, so this holds whatever
the expiry is. -/
theorem add_never_fails (hashOf : Envelope → Hash) (w : Whisper) (E : Envelope) :
    (Whisper.add hashOf w E).2 = none
      ∧ (Whisper.Send hashOf w E).2 = none
      ∧ Whisper.Send hashOf w E = Whisper.add hashOf w E
      ∧ (hashOf E ∉ mapKeys w.messages →
          mapGet (Whisper.add hashOf w E).1.messages (hashOf E) = some E
            ∧ (hashOf E, E) ∈ (Whisper.add hashOf w E).1.messages
            ∧ hashOf E ∈ bucket (Whisper.add hashOf w E).1.expirations E.Expiry
            ∧ ∃ s, (E.Expiry, s) ∈ (Whisper.add hashOf w E).1.expirations
                ∧ hashOf E ∈ s) := by
  refine ⟨add_error hashOf w E, add_error hashOf w E, rfl, ?_⟩
  intro hk
  have hnew := (mapGet_eq_none_iff _ _).mpr hk
  have hget : mapGet (Whisper.add hashOf w E).1.messages (hashOf E) = some E := by
    rw [add_messages]
    simp [hnew, mapGet_mapSet]
  have hb := add_bucket_mem hashOf w E hnew
  exact ⟨hget, mem_of_mapGet _ _ _ hget, hb, mem_of_mem_bucket _ _ _ hb⟩

/-- Instance of C13: `envA` expires at second 5; after `expire` has run at second 10 the
pool still takes it, with no error. -/
theorem add_never_fails_witness :
    sampleHash envA ∉ mapKeys (Whisper.expire 10 New).messages
      ∧ (Whisper.add sampleHash (Whisper.expire 10 New) envA).2 = none
      ∧ (Whisper.add sampleHash (Whisper.expire 10 New) envA).1.messages
          = [(sampleHash envA, envA)]
      ∧ (Whisper.add sampleHash (Whisper.expire 10 New) envA).1.expirations
          = [(5, [sampleHash envA])]
      ∧ mapGet (Whisper.add sampleHash (Whisper.expire 10 New) envA).1.messages
          (sampleHash envA) = some envA :=
  ⟨by decide, (add_never_fails sampleHash (Whisper.expire 10 New) envA).1, by decide, by decide,
    ((add_never_fails sampleHash (Whisper.expire 10 New) envA).2.2.2 (by decide)).1⟩

end Shh
